import Mathlib

/-!
Shallow embedding of the `mon` repository's core: the dependency differ
(`pkg/deps`, the structured revision embedded in `pkg/mon/display.go`), the
file ledger (`pkg/files/map.go`) and the event reconciler's create/remove
handlers (`pkg/files/events.go`).  Go maps are embedded as association lists
with overwrite-on-insert; `int64` counters are embedded as `Int`; fallible Go
functions returning `error` are embedded as `Except`-valued functions.
-/

namespace Mon

/-! ### Association-list embedding of Go maps -/

/-- Lookup in an association list keyed by strings; embeds `m[k]` on a Go map. -/
def getKey {α : Type} : List (String × α) → String → Option α
  | [], _ => none
  | q :: rest, k => if q.1 = k then some q.2 else getKey rest k

/-- Insert-or-overwrite; embeds `m[k] = v` on a Go map. -/
def setKey {α : Type} (m : List (String × α)) (k : String) (v : α) : List (String × α) :=
  if m.any (fun q => q.1 = k) then m.map (fun q => if q.1 = k then (k, v) else q)
  else m ++ [(k, v)]

/-- Key removal; embeds `delete(m, k)` on a Go map. -/
def delKey {α : Type} : List (String × α) → String → List (String × α)
  | [], _ => []
  | q :: rest, k => if q.1 = k then delKey rest k else q :: delKey rest k

/-! ### Lemmas about the association-list map embedding -/

theorem getKey_eq_none_iff {α : Type} (m : List (String × α)) (k : String) :
    getKey m k = none ↔ ∀ q ∈ m, q.1 ≠ k := by
  induction m with
  | nil => simp [getKey]
  | cons q rest ih =>
    by_cases hq : q.1 = k
    · simp [getKey, hq]
    · simp [getKey, hq, ih]

theorem getKey_isSome_iff {α : Type} (m : List (String × α)) (k : String) :
    (getKey m k).isSome ↔ k ∈ m.map Prod.fst := by
  induction m with
  | nil => simp [getKey]
  | cons q rest ih =>
    by_cases hq : q.1 = k
    · simp [getKey, hq]
    · have hq2 : ¬ k = q.1 := fun hc => hq hc.symm
      simp [getKey, hq, hq2, ih]

theorem getKey_append {α : Type} (m m' : List (String × α)) (k : String) :
    getKey (m ++ m') k = match getKey m k with | some v => some v | none => getKey m' k := by
  induction m with
  | nil => simp [getKey]
  | cons q rest ih =>
    by_cases hq : q.1 = k
    · simp [getKey, hq]
    · simp [getKey, hq, ih]

theorem getKey_map_repl_self {α : Type} (m : List (String × α)) (k : String) (v : α)
    (h : m.any (fun q => q.1 = k)) :
    getKey (m.map (fun q => if q.1 = k then (k, v) else q)) k = some v := by
  induction m with
  | nil => simp at h
  | cons q rest ih =>
    by_cases hq : q.1 = k
    · simp [getKey, hq]
    · simp only [List.any_cons, Bool.or_eq_true, decide_eq_true_eq, hq, false_or] at h
      simp [getKey, hq, ih h]

theorem getKey_map_repl_ne {α : Type} (m : List (String × α)) (k k' : String) (v : α)
    (h : k' ≠ k) :
    getKey (m.map (fun q => if q.1 = k then (k, v) else q)) k' = getKey m k' := by
  induction m with
  | nil => simp [getKey]
  | cons q rest ih =>
    by_cases hq : q.1 = k
    · have hq' : q.1 ≠ k' := fun hc => h (hc.symm.trans hq)
      have hk' : k ≠ k' := fun hc => h hc.symm
      simp [getKey, hq, hq', hk', ih]
    · simp only [List.map_cons, if_neg hq, getKey]
      by_cases hq' : q.1 = k' <;> simp [hq', ih]

theorem getKey_setKey_self {α : Type} (m : List (String × α)) (k : String) (v : α) :
    getKey (setKey m k v) k = some v := by
  by_cases h : m.any (fun q => q.1 = k)
  · rw [show setKey m k v = m.map (fun q => if q.1 = k then (k, v) else q) from by
      simp [setKey, h]]
    exact getKey_map_repl_self m k v h
  · rw [show setKey m k v = m ++ [(k, v)] from by simp [setKey, h], getKey_append]
    have hnone : getKey m k = none := by
      rw [getKey_eq_none_iff]
      intro q hq hq1
      exact h (List.any_eq_true.mpr ⟨q, hq, by simp [hq1]⟩)
    rw [hnone]
    simp [getKey]

theorem getKey_setKey_ne {α : Type} (m : List (String × α)) (k k' : String) (v : α)
    (h : k' ≠ k) : getKey (setKey m k v) k' = getKey m k' := by
  by_cases hm : m.any (fun q => q.1 = k)
  · rw [show setKey m k v = m.map (fun q => if q.1 = k then (k, v) else q) from by
      simp [setKey, hm]]
    exact getKey_map_repl_ne m k k' v h
  · rw [show setKey m k v = m ++ [(k, v)] from by simp [setKey, hm], getKey_append]
    cases hg : getKey m k' with
    | some v' => simp
    | none =>
      have hk : ¬ k = k' := fun hc => h hc.symm
      simp [getKey, hk]

theorem getKey_delKey_self {α : Type} (m : List (String × α)) (k : String) :
    getKey (delKey m k) k = none := by
  induction m with
  | nil => simp [delKey, getKey]
  | cons q rest ih =>
    by_cases hq : q.1 = k
    · simpa [delKey, hq] using ih
    · simpa [delKey, getKey, hq] using ih

theorem getKey_delKey_ne {α : Type} (m : List (String × α)) (k k' : String) (h : k' ≠ k) :
    getKey (delKey m k) k' = getKey m k' := by
  induction m with
  | nil => simp [delKey, getKey]
  | cons q rest ih =>
    by_cases hq : q.1 = k
    · have hq' : q.1 ≠ k' := fun hc => h (hc.symm.trans hq)
      simp only [delKey, if_pos hq, getKey, if_neg hq']
      exact ih
    · simp only [delKey, if_neg hq, getKey]
      by_cases hq' : q.1 = k'
      · simp [hq']
      · simp [hq', ih]

theorem getKey_mem {α : Type} (m : List (String × α)) (k : String) (v : α)
    (h : getKey m k = some v) : (k, v) ∈ m := by
  induction m with
  | nil => simp [getKey] at h
  | cons q rest ih =>
    obtain ⟨q1, q2⟩ := q
    by_cases hq : q1 = k
    · subst hq
      simp only [getKey, if_true, eq_self_iff_true, Option.some.injEq] at h
      subst h
      exact List.mem_cons_self _ _
    · have hrw : getKey ((q1, q2) :: rest) k = getKey rest k := by
        simp [getKey, hq]
      rw [hrw] at h
      exact List.mem_cons_of_mem _ (ih h)

theorem mem_getKey_of_nodup {α : Type} (m : List (String × α)) (k : String) (v : α)
    (hnd : (m.map Prod.fst).Nodup) (h : (k, v) ∈ m) : getKey m k = some v := by
  induction m with
  | nil => simp at h
  | cons q rest ih =>
    simp only [List.map_cons, List.nodup_cons] at hnd
    rcases List.mem_cons.mp h with h | h
    · subst h; simp [getKey]
    · have hq : q.1 ≠ k := by
        intro hcontra
        exact hnd.1 (hcontra ▸ (List.mem_map.mpr ⟨(k, v), h, rfl⟩))
      simp [getKey, hq, ih hnd.2 h]

theorem keys_map_repl {α : Type} (m : List (String × α)) (k : String) (v : α) :
    (m.map (fun q => if q.1 = k then (k, v) else q)).map Prod.fst = m.map Prod.fst := by
  induction m with
  | nil => rfl
  | cons q rest ih =>
    by_cases hq : q.1 = k
    · simp [hq, ih]
    · simp [hq, ih]

theorem keys_setKey_present {α : Type} (m : List (String × α)) (k : String) (v : α)
    (h : m.any (fun q => q.1 = k)) :
    (setKey m k v).map Prod.fst = m.map Prod.fst := by
  simp only [setKey, h, if_true]
  exact keys_map_repl m k v

theorem keys_setKey_absent {α : Type} (m : List (String × α)) (k : String) (v : α)
    (h : ¬ m.any (fun q => q.1 = k)) :
    (setKey m k v).map Prod.fst = m.map Prod.fst ++ [k] := by
  simp [setKey, h]

theorem keys_delKey {α : Type} (m : List (String × α)) (k : String) :
    (delKey m k).map Prod.fst = (m.map Prod.fst).filter (fun x => x ≠ k) := by
  induction m with
  | nil => rfl
  | cons q rest ih =>
    by_cases hq : q.1 = k
    · simp [delKey, hq, List.filter_cons, ih]
    · simp [delKey, hq, List.filter_cons, ih]

theorem getKey_filter_eq_nil {α : Type} (m : List (String × α)) (k : String)
    (h : getKey m k = none) : m.filter (fun q => q.1 = k) = [] := by
  rw [getKey_eq_none_iff] at h
  simp only [List.filter_eq_nil_iff, decide_eq_true_eq]
  exact h

/-! ### `pkg/deps`: Dependency model and differ (structured revision,
embedded at the end of `pkg/mon/display.go`) -/

structure Dependency where
  name : String
  url : String
  version : String
  deriving DecidableEq, Repr

namespace Dependency

/-- `Dependency.Package` from `pkg/mon/display.go`: the diff key combining
name and url.  The Go `switch` is embedded case by case, including the
(dead) `default` branch. -/
def Package (d : Dependency) : String :=
  if d.name = "" then d.url
  else if d.url = "" then d.name
  else if d.name ≠ "" ∧ d.url ≠ "" then d.name ++ " (" ++ d.url ++ ")"
  else "<unknown>"

end Dependency

structure UpdatedDependency where
  initial : Dependency
  latest : Dependency
  deriving DecidableEq, Repr

structure FileDiff where
  path : String
  newDependencies : List Dependency
  deletedDependencies : List Dependency
  updatedDependencies : List UpdatedDependency
  deriving DecidableEq, Repr

/-- Builds the `unique...` Go map of `Dependencies.Diff`: fold the dependency
list into a map keyed by `Package()`, later occurrences overwriting earlier
ones. -/
def uniqueByPackage (l : List Dependency) : List (String × Dependency) :=
  l.foldl (fun m dep => setKey m dep.Package dep) []

/-- `Dependencies.Diff` from `pkg/mon/display.go`: `d` is the latest
snapshot, `initial` the baseline.  Keys only in latest are added; keys in
both with differing versions are updated; keys only in initial are
removed. -/
def Dependencies.Diff (d : List Dependency) (name : String) (initial : List Dependency) :
    FileDiff :=
  let uniqueLatest := uniqueByPackage d
  let uniqueInitial := uniqueByPackage initial
  let added := (uniqueLatest.filter (fun q => (getKey uniqueInitial q.1).isNone)).map (·.2)
  let bumped := uniqueLatest.filterMap (fun q =>
    match getKey uniqueInitial q.1 with
    | some initialDep =>
      if initialDep.version ≠ q.2.version then
        some { initial := initialDep, latest := q.2 }
      else none
    | none => none)
  let removed := (uniqueInitial.filter (fun q => (getKey uniqueLatest q.1).isNone)).map (·.2)
  { path := name
    newDependencies := added
    deletedDependencies := removed
    updatedDependencies := bumped }

/-! ### Lemmas about the dependency differ -/

theorem mem_setKey {α : Type} {m : List (String × α)} {k : String} {v : α} {q : String × α}
    (h : q ∈ setKey m k v) : q = (k, v) ∨ q ∈ m := by
  by_cases hm : m.any (fun q => q.1 = k)
  · rw [show setKey m k v = m.map (fun q => if q.1 = k then (k, v) else q) from by
      simp [setKey, hm]] at h
    obtain ⟨orig, horig, heq⟩ := List.mem_map.mp h
    by_cases ho : orig.1 = k
    · left; rw [← heq]; simp [ho]
    · right; rw [← heq]; simpa [ho] using horig
  · rw [show setKey m k v = m ++ [(k, v)] from by simp [setKey, hm]] at h
    rcases List.mem_append.mp h with h | h
    · right; exact h
    · left; simpa using h

theorem nodup_keys_setKey {α : Type} (m : List (String × α)) (k : String) (v : α)
    (h : (m.map Prod.fst).Nodup) : ((setKey m k v).map Prod.fst).Nodup := by
  by_cases hm : m.any (fun q => q.1 = k)
  · rw [keys_setKey_present m k v hm]; exact h
  · rw [keys_setKey_absent m k v hm]
    have hk : k ∉ m.map Prod.fst := by
      intro hc
      obtain ⟨q, hq, hq1⟩ := List.mem_map.mp hc
      exact hm (List.any_eq_true.mpr ⟨q, hq, by simp [hq1]⟩)
    rw [List.nodup_append]
    exact ⟨h, List.nodup_singleton _, by simpa [List.disjoint_singleton] using hk⟩

theorem mem_uniqueAux (l : List Dependency) (m : List (String × Dependency))
    (q : String × Dependency) (h : q ∈ l.foldl (fun m dep => setKey m dep.Package dep) m) :
    q ∈ m ∨ ∃ d ∈ l, q = (d.Package, d) := by
  induction l generalizing m with
  | nil => exact Or.inl h
  | cons d rest ih =>
    rcases ih (setKey m d.Package d) h with h' | h'
    · rcases mem_setKey h' with h'' | h''
      · exact Or.inr ⟨d, List.mem_cons_self _ _, h''⟩
      · exact Or.inl h''
    · obtain ⟨d', hd', heq⟩ := h'
      exact Or.inr ⟨d', List.mem_cons_of_mem _ hd', heq⟩

theorem mem_uniqueByPackage {l : List Dependency} {q : String × Dependency}
    (h : q ∈ uniqueByPackage l) : ∃ d ∈ l, q = (d.Package, d) := by
  rcases mem_uniqueAux l [] q h with h' | h'
  · simp at h'
  · exact h'

theorem nodup_keys_uniqueAux (l : List Dependency) (m : List (String × Dependency))
    (h : (m.map Prod.fst).Nodup) :
    ((l.foldl (fun m dep => setKey m dep.Package dep) m).map Prod.fst).Nodup := by
  induction l generalizing m with
  | nil => exact h
  | cons d rest ih => exact ih _ (nodup_keys_setKey m d.Package d h)

theorem nodup_keys_uniqueByPackage (l : List Dependency) :
    ((uniqueByPackage l).map Prod.fst).Nodup :=
  nodup_keys_uniqueAux l [] (by simp)

theorem getKey_uniqueAux (l : List Dependency) (m : List (String × Dependency)) (k : String) :
    (getKey (l.foldl (fun m dep => setKey m dep.Package dep) m) k).isSome ↔
      ((getKey m k).isSome ∨ k ∈ l.map Dependency.Package) := by
  induction l generalizing m with
  | nil => simp
  | cons d rest ih =>
    rw [List.foldl_cons, ih]
    by_cases hk : k = d.Package
    · subst hk
      simp [getKey_setKey_self]
    · rw [getKey_setKey_ne m d.Package k d hk]
      simp only [List.map_cons, List.mem_cons]
      constructor
      · rintro (h | h)
        · exact Or.inl h
        · exact Or.inr (Or.inr h)
      · rintro (h | h | h)
        · exact Or.inl h
        · exact absurd h hk
        · exact Or.inr h

theorem getKey_uniqueByPackage_isSome (l : List Dependency) (k : String) :
    (getKey (uniqueByPackage l) k).isSome ↔ k ∈ l.map Dependency.Package := by
  rw [uniqueByPackage, getKey_uniqueAux]
  simp [getKey]

theorem getKey_uniqueByPackage_eq_none (l : List Dependency) (k : String) :
    getKey (uniqueByPackage l) k = none ↔ k ∉ l.map Dependency.Package := by
  rw [← getKey_uniqueByPackage_isSome, Option.not_isSome_iff_eq_none]

theorem getKey_uniqueByPackage_some {l : List Dependency} {k : String} {v : Dependency}
    (h : getKey (uniqueByPackage l) k = some v) : v.Package = k ∧ v ∈ l := by
  have hmem := getKey_mem _ _ _ h
  obtain ⟨d, hd, heq⟩ := mem_uniqueByPackage hmem
  obtain ⟨h1, h2⟩ := Prod.mk.injEq .. ▸ heq
  subst h2
  exact ⟨h1.symm, hd⟩

theorem mem_unique_getKey {l : List Dependency} {q : String × Dependency}
    (h : q ∈ uniqueByPackage l) : getKey (uniqueByPackage l) q.1 = some q.2 :=
  mem_getKey_of_nodup _ _ _ (nodup_keys_uniqueByPackage l) (by cases q; exact h)

/-- Characterization of the added-package identities of `Dependencies.Diff`. -/
theorem diff_added_char (latest initial : List Dependency) (n k : String) :
    k ∈ (Dependencies.Diff latest n initial).newDependencies.map Dependency.Package ↔
      (k ∈ latest.map Dependency.Package ∧ k ∉ initial.map Dependency.Package) := by
  simp only [Dependencies.Diff, List.map_map, List.mem_map, List.mem_filter,
    Function.comp, Option.isNone_iff_eq_none]
  constructor
  · rintro ⟨q, ⟨hmem, hnone⟩, hpkg⟩
    have hq := mem_unique_getKey hmem
    obtain ⟨hP, hv⟩ := getKey_uniqueByPackage_some hq
    rw [hP] at hpkg
    subst hpkg
    refine ⟨⟨q.2, hv, hP⟩, fun hc => ?_⟩
    obtain ⟨a, ha, hpk⟩ := hc
    rw [getKey_uniqueByPackage_eq_none] at hnone
    exact hnone (List.mem_map.mpr ⟨a, ha, hpk⟩)
  · rintro ⟨⟨a, ha, hpk⟩, hini⟩
    have hlat : (getKey (uniqueByPackage latest) k).isSome := by
      rw [getKey_uniqueByPackage_isSome]
      exact List.mem_map.mpr ⟨a, ha, hpk⟩
    obtain ⟨v, hv⟩ := Option.isSome_iff_exists.mp hlat
    refine ⟨(k, v), ⟨getKey_mem _ _ _ hv, ?_⟩, (getKey_uniqueByPackage_some hv).1⟩
    rw [getKey_uniqueByPackage_eq_none]
    intro hc
    obtain ⟨b, hb, hbpk⟩ := List.mem_map.mp hc
    exact hini ⟨b, hb, hbpk⟩

/-- Characterization of the removed-package identities of `Dependencies.Diff`. -/
theorem diff_removed_char (latest initial : List Dependency) (n k : String) :
    k ∈ (Dependencies.Diff latest n initial).deletedDependencies.map Dependency.Package ↔
      (k ∈ initial.map Dependency.Package ∧ k ∉ latest.map Dependency.Package) := by
  simp only [Dependencies.Diff, List.map_map, List.mem_map, List.mem_filter,
    Function.comp, Option.isNone_iff_eq_none]
  constructor
  · rintro ⟨q, ⟨hmem, hnone⟩, hpkg⟩
    have hq := mem_unique_getKey hmem
    obtain ⟨hP, hv⟩ := getKey_uniqueByPackage_some hq
    rw [hP] at hpkg
    subst hpkg
    refine ⟨⟨q.2, hv, hP⟩, fun hc => ?_⟩
    obtain ⟨a, ha, hpk⟩ := hc
    rw [getKey_uniqueByPackage_eq_none] at hnone
    exact hnone (List.mem_map.mpr ⟨a, ha, hpk⟩)
  · rintro ⟨⟨a, ha, hpk⟩, hlat⟩
    have hini : (getKey (uniqueByPackage initial) k).isSome := by
      rw [getKey_uniqueByPackage_isSome]
      exact List.mem_map.mpr ⟨a, ha, hpk⟩
    obtain ⟨v, hv⟩ := Option.isSome_iff_exists.mp hini
    refine ⟨(k, v), ⟨getKey_mem _ _ _ hv, ?_⟩, (getKey_uniqueByPackage_some hv).1⟩
    rw [getKey_uniqueByPackage_eq_none]
    intro hc
    obtain ⟨b, hb, hbpk⟩ := List.mem_map.mp hc
    exact hlat ⟨b, hb, hbpk⟩

/-- Characterization of the updated pairs of `Dependencies.Diff`. -/
theorem diff_updated_char (latest initial : List Dependency) (n : String)
    (u : UpdatedDependency) :
    u ∈ (Dependencies.Diff latest n initial).updatedDependencies ↔
      ∃ k dl di, getKey (uniqueByPackage latest) k = some dl ∧
        getKey (uniqueByPackage initial) k = some di ∧
        di.version ≠ dl.version ∧ u = ⟨di, dl⟩ := by
  simp only [Dependencies.Diff, List.mem_filterMap]
  constructor
  · rintro ⟨q, hmem, hfn⟩
    have hq := mem_unique_getKey hmem
    cases hini : getKey (uniqueByPackage initial) q.1 with
    | none => rw [hini] at hfn; simp at hfn
    | some di =>
      rw [hini] at hfn
      by_cases hver : di.version ≠ q.2.version
      · simp only [if_pos hver, Option.some.injEq] at hfn
        exact ⟨q.1, q.2, di, hq, hini, hver, hfn.symm⟩
      · simp [if_neg hver] at hfn
  · rintro ⟨k, dl, di, hlat, hini, hver, rfl⟩
    refine ⟨(k, dl), getKey_mem _ _ _ hlat, ?_⟩
    simp only [hini, if_pos hver]

/-- Character-level embedding of Go `strings.HasPrefix(s, pre)`. -/
def hasPref (s pre : String) : Bool := decide (s.data.take pre.data.length = pre.data)

/-! ### `pkg/files/map.go`: the file ledger -/

inductive FileType where
  | initial
  | new
  deriving DecidableEq, Repr

inductive FileMapErr where
  | unknownFile
  | fileTracked
  deriving DecidableEq, Repr

/-- `files.FileInfo`: ledger metadata per path.  The embedded `fs.FileInfo`
is reduced to the only field the ledger consults, `IsDir()`. -/
structure FileInfo where
  isDir : Bool
  fileType : FileType
  wasDeleted : Bool := false
  writes : Int := 0
  preSwapWrites : Int := 0
  pendingSwap : Bool := false
  deriving DecidableEq, Repr

def FileInfo.IsInitial (f : FileInfo) : Bool := f.fileType = FileType.initial

/-- `files.FileMap`: the ledger.  The Go map is an association list; the
`int64` counters are `Int`. -/
structure FileMap where
  files : List (String × FileInfo) := []
  filesCreated : Int := 0
  filesDeleted : Int := 0
  deriving DecidableEq, Repr

def NewFileMap : FileMap := {}

namespace FileMap

/-- `FileMap.AddFile`.  On a tracked, not-deleted path it fails with
`ErrFileTracked`; on a tracked tombstoned path it resurrects (bumping
`filesCreated` when the old entry is not Initial-typed); on a fresh path it
inserts (bumping `filesCreated` unless the info is Initial-typed).  In every
success case the Go code ends with `f.files[path] = &info`, so the stored
entry is exactly `info`. -/
def AddFile (f : FileMap) (path : String) (info : FileInfo) : Except FileMapErr FileMap :=
  match getKey f.files path with
  | some file =>
    if !file.wasDeleted then
      .error .fileTracked
    else
      let f := if !file.IsInitial then { f with filesCreated := f.filesCreated + 1 } else f
      .ok { f with files := setKey f.files path info }
  | none =>
    let f := if info.fileType ≠ FileType.initial then
        { f with filesCreated := f.filesCreated + 1 }
      else f
    .ok { f with files := setKey f.files path info }

/-- `FileMap.AddWrite`: bumps `Writes` unless the entry has `PendingSwap`
set (then a successful no-op); `ErrUnknownFile` when untracked. -/
def AddWrite (f : FileMap) (path : String) : Except FileMapErr FileMap :=
  match getKey f.files path with
  | none => .error .unknownFile
  | some file =>
    if file.pendingSwap then
      .ok f
    else
      .ok { f with files := setKey f.files path { file with writes := file.writes + 1 } }

/-- `FileMap.AddSwapWrite`: folds `Writes` into `PreSwapWrites`, sets
`Writes = 1`, clears `PendingSwap`; `ErrUnknownFile` when untracked. -/
def AddSwapWrite (f : FileMap) (path : String) : Except FileMapErr FileMap :=
  match getKey f.files path with
  | none => .error .unknownFile
  | some file =>
    .ok { f with
          files := setKey f.files path
            { file with
              preSwapWrites := file.preSwapWrites + file.writes
              writes := 1
              pendingSwap := false } }

/-- `FileMap.MarkPendingSwap`: sets the flag; silently does nothing when the
path is untracked. -/
def MarkPendingSwap (f : FileMap) (path : String) : FileMap :=
  match getKey f.files path with
  | none => f
  | some file => { f with files := setKey f.files path { file with pendingSwap := true } }

/-- `FileMap.deleteIndividual` without the recursive step: tombstone an
Initial entry (bumping `filesDeleted`), remove a non-Initial entry (dropping
`filesCreated`); `ErrUnknownFile` when untracked. -/
def deleteOne (f : FileMap) (path : String) : Except FileMapErr FileMap :=
  match getKey f.files path with
  | none => .error .unknownFile
  | some file =>
    if file.IsInitial then
      .ok { f with
            files := setKey f.files path { file with wasDeleted := true }
            filesDeleted := f.filesDeleted + 1 }
    else
      .ok { f with files := delKey f.files path, filesCreated := f.filesCreated - 1 }

/-- `FileMap.deleteChildren`: snapshot every tracked path that has
`parentPath` as a string prefix, then delete each one non-recursively,
aborting on the first failure. -/
def deleteChildren (f : FileMap) (parentPath : String) : Except FileMapErr FileMap :=
  let toDelete := (f.files.filter (fun q => hasPref q.1 parentPath)).map (·.1)
  toDelete.foldlM (fun acc p => acc.deleteOne p) f

/-- `FileMap.deleteIndividual`: the non-recursive step, then — when
`recursive` is set and the entry is a directory — the cascade over
prefix-matching paths. -/
def deleteIndividual (f : FileMap) (path : String) (recursive : Bool) :
    Except FileMapErr FileMap :=
  match getKey f.files path with
  | none => .error .unknownFile
  | some file =>
    let f' :=
      if file.IsInitial then
        { f with
          files := setKey f.files path { file with wasDeleted := true }
          filesDeleted := f.filesDeleted + 1 }
      else
        { f with files := delKey f.files path, filesCreated := f.filesCreated - 1 }
    if recursive && file.isDir then f'.deleteChildren path else .ok f'

/-- `FileMap.Delete`: `deleteIndividual(path, true)`. -/
def Delete (f : FileMap) (path : String) : Except FileMapErr FileMap :=
  f.deleteIndividual path true

def Has (f : FileMap) (path : String) : Bool := (getKey f.files path).isSome

def Get (f : FileMap) (path : String) : Except FileMapErr FileInfo :=
  match getKey f.files path with
  | none => .error .unknownFile
  | some file => .ok file

/-- Count of tracked entries with `fileType = New` and `wasDeleted = false`
(the tracked-set quantity `filesCreated` is specified to equal). -/
def liveNewCount (f : FileMap) : Int :=
  ((f.files.filter (fun q => q.2.fileType = FileType.new && !q.2.wasDeleted)).length : Int)

/-- Count of tracked entries with `fileType = Initial` and
`wasDeleted = true` (the tracked-set quantity `filesDeleted` is specified to
equal). -/
def tombstoneCount (f : FileMap) : Int :=
  ((f.files.filter (fun q => q.2.fileType = FileType.initial && q.2.wasDeleted)).length : Int)

end FileMap

/-! ### Lemmas about the file ledger operations -/

theorem any_eq_true_of_getKey_some {α : Type} {m : List (String × α)} {k : String} {v : α}
    (h : getKey m k = some v) : m.any (fun q => q.1 = k) = true :=
  List.any_eq_true.mpr ⟨(k, v), getKey_mem m k v h, by simp⟩

/-- Number of ledger entries stored for a given path. -/
def countKey {α : Type} (m : List (String × α)) (k : String) : Nat :=
  (m.filter (fun q => q.1 = k)).length

theorem countKey_setKey_absent {α : Type} (m : List (String × α)) (k : String) (v : α)
    (h : getKey m k = none) : countKey (setKey m k v) k = 1 := by
  have hany : ¬ m.any (fun q => q.1 = k) = true := by
    intro hc
    obtain ⟨q, hq, hq1⟩ := List.any_eq_true.mp hc
    rw [getKey_eq_none_iff] at h
    exact h q hq (by simpa using hq1)
  rw [show setKey m k v = m ++ [(k, v)] from by simp [setKey, hany]]
  unfold countKey
  rw [List.filter_append, getKey_filter_eq_nil m k h]
  simp

namespace FileMap

theorem deleteOne_ok_initial (f : FileMap) (p : String) (i : FileInfo)
    (h : getKey f.files p = some i) (hi : i.IsInitial = true) :
    f.deleteOne p = .ok { f with
      files := setKey f.files p { i with wasDeleted := true }
      filesDeleted := f.filesDeleted + 1 } := by
  simp [deleteOne, h, hi]

theorem deleteOne_ok_new (f : FileMap) (p : String) (i : FileInfo)
    (h : getKey f.files p = some i) (hi : i.IsInitial = false) :
    f.deleteOne p = .ok { f with
      files := delKey f.files p
      filesCreated := f.filesCreated - 1 } := by
  simp [deleteOne, h, hi]

theorem deleteOne_getKey_ne {f f' : FileMap} {p : String} (q : String)
    (h : f.deleteOne p = .ok f') (hq : q ≠ p) :
    getKey f'.files q = getKey f.files q := by
  cases hg : getKey f.files p with
  | none => unfold deleteOne at h; rw [hg] at h; exact absurd h (by simp)
  | some i =>
    simp only [deleteOne, hg] at h
    by_cases hi : i.IsInitial = true
    · rw [if_pos hi] at h
      cases h
      exact getKey_setKey_ne f.files p q _ hq
    · rw [if_neg hi] at h
      cases h
      exact getKey_delKey_ne f.files p q hq

theorem deleteOne_getKey_self {f f' : FileMap} {p : String} {i : FileInfo}
    (hg : getKey f.files p = some i) (h : f.deleteOne p = .ok f') :
    getKey f'.files p = if i.IsInitial then some { i with wasDeleted := true } else none := by
  simp only [deleteOne, hg] at h
  by_cases hi : i.IsInitial = true
  · rw [if_pos hi] at h
    cases h
    rw [if_pos hi]
    exact getKey_setKey_self f.files p _
  · rw [if_neg hi] at h
    cases h
    rw [if_neg hi]
    exact getKey_delKey_self f.files p

/-- Core cascade lemma: folding `deleteOne` over a duplicate-free list of
tracked paths succeeds, tombstones each listed Initial entry, removes each
listed non-Initial entry, and leaves every other path untouched. -/
theorem foldl_deleteOne_spec (ps : List String) (g : FileMap)
    (hnd : ps.Nodup) (hmem : ∀ p ∈ ps, (getKey g.files p).isSome) :
    ∃ h, ps.foldlM (fun acc p => acc.deleteOne p) g = Except.ok h ∧
      (∀ q, q ∉ ps → getKey h.files q = getKey g.files q) ∧
      (∀ q i, q ∈ ps → getKey g.files q = some i →
        getKey h.files q = if i.IsInitial then some { i with wasDeleted := true } else none) := by
  induction ps generalizing g with
  | nil =>
    refine ⟨g, rfl, fun q _ => rfl, fun q i hq => absurd hq (by simp)⟩
  | cons p rest ih =>
    obtain ⟨i, hi⟩ := Option.isSome_iff_exists.mp (hmem p (List.mem_cons_self _ _))
    have hstep : ∃ g₁, g.deleteOne p = .ok g₁ := by
      by_cases hini : i.IsInitial = true
      · exact ⟨_, deleteOne_ok_initial g p i hi hini⟩
      · exact ⟨_, deleteOne_ok_new g p i hi (by simpa using hini)⟩
    obtain ⟨g₁, hg₁⟩ := hstep
    have hnd' : rest.Nodup := (List.nodup_cons.mp hnd).2
    have hpnot : p ∉ rest := (List.nodup_cons.mp hnd).1
    have hmem' : ∀ q ∈ rest, (getKey g₁.files q).isSome := by
      intro q hq
      have hne : q ≠ p := fun hc => hpnot (hc ▸ hq)
      rw [deleteOne_getKey_ne q hg₁ hne]
      exact hmem q (List.mem_cons_of_mem _ hq)
    obtain ⟨h, hfold, hout, hin⟩ := ih g₁ hnd' hmem'
    refine ⟨h, ?_, ?_, ?_⟩
    · rw [List.foldlM_cons, hg₁]
      simpa using hfold
    · intro q hq
      have hq1 : q ≠ p := fun hc => hq (hc ▸ List.mem_cons_self _ _)
      have hq2 : q ∉ rest := fun hc => hq (List.mem_cons_of_mem _ hc)
      rw [hout q hq2, deleteOne_getKey_ne q hg₁ hq1]
    · intro q j hq hgq
      rcases List.mem_cons.mp hq with rfl | hq'
      · have hij : j = i := by
          rw [hgq] at hi
          exact (Option.some.injEq _ _).mp hi
        subst hij
        rw [hout q hpnot]
        exact deleteOne_getKey_self hgq hg₁
      · have hne : q ≠ p := fun hc => hpnot (hc ▸ hq')
        have hg₁q : getKey g₁.files q = some j := by
          rw [deleteOne_getKey_ne q hg₁ hne]; exact hgq
        exact hin q j hq' hg₁q

end FileMap

theorem isInitial_true_iff (i : FileInfo) : i.IsInitial = true ↔ i.fileType = FileType.initial := by
  simp [FileInfo.IsInitial]

theorem isInitial_false_iff (i : FileInfo) : i.IsInitial = false ↔ i.fileType = FileType.new := by
  cases h : i.fileType <;> simp [FileInfo.IsInitial, h]

namespace FileMap

/-- `deleteChildren` always succeeds on a ledger with duplicate-free keys:
every tracked path with the parent as string prefix is tombstoned (Initial)
or removed (New); everything else is untouched. -/
theorem deleteChildren_spec (g : FileMap) (p : String)
    (hnd : (g.files.map Prod.fst).Nodup) :
    ∃ h, g.deleteChildren p = Except.ok h ∧
      (∀ q, (getKey g.files q = none ∨ ¬ hasPref q p = true) →
        getKey h.files q = getKey g.files q) ∧
      (∀ q j, getKey g.files q = some j → hasPref q p = true →
        getKey h.files q = if j.IsInitial then some { j with wasDeleted := true } else none) := by
  have hsub : ((g.files.filter (fun q => hasPref q.1 p)).map Prod.fst).Sublist
      (g.files.map Prod.fst) := (List.filter_sublist _).map Prod.fst
  have hndDel : ((g.files.filter (fun q => hasPref q.1 p)).map Prod.fst).Nodup :=
    hnd.sublist hsub
  have hmem : ∀ p' ∈ (g.files.filter (fun q => hasPref q.1 p)).map Prod.fst,
      (getKey g.files p').isSome := by
    intro p' hp'
    obtain ⟨pair, hpair, hfst⟩ := List.mem_map.mp hp'
    rw [getKey_isSome_iff]
    exact List.mem_map.mpr ⟨pair, (List.mem_filter.mp hpair).1, hfst⟩
  obtain ⟨h, hfold, hout, hin⟩ :=
    foldl_deleteOne_spec ((g.files.filter (fun q => hasPref q.1 p)).map Prod.fst) g hndDel hmem
  refine ⟨h, by simpa [deleteChildren] using hfold, ?_, ?_⟩
  · intro q hq
    refine hout q (fun hc => ?_)
    obtain ⟨pair, hpair, hfst⟩ := List.mem_map.mp hc
    obtain ⟨hpg, hpref⟩ := List.mem_filter.mp hpair
    rcases hq with hq | hq
    · rw [getKey_eq_none_iff] at hq
      exact hq pair hpg hfst
    · exact hq (by rw [← hfst]; simpa using hpref)
  · intro q j hgq hpref
    have hqmem : q ∈ (g.files.filter (fun q => hasPref q.1 p)).map Prod.fst :=
      List.mem_map.mpr ⟨(q, j),
        List.mem_filter.mpr ⟨getKey_mem _ _ _ hgq, by simpa using hpref⟩, rfl⟩
    exact hin q j hqmem hgq

/-- The directory-delete cascade of `FileMap.Delete`. -/
theorem delete_dir_cascade (f : FileMap) (p : String) (i : FileInfo)
    (hnd : (f.files.map Prod.fst).Nodup)
    (hget : getKey f.files p = some i)
    (hdir : i.isDir = true) :
    ∃ f', f.Delete p = Except.ok f' ∧
      ∀ q j, getKey f.files q = some j → hasPref q p = true →
        (j.fileType = FileType.new → getKey f'.files q = none) ∧
        (j.fileType = FileType.initial →
          ∃ j', getKey f'.files q = some j' ∧ j'.wasDeleted = true) := by
  by_cases hini : i.IsInitial = true
  · -- Initial directory: tombstoned first, then the cascade (which re-visits it)
    set g : FileMap := { f with
      files := setKey f.files p { i with wasDeleted := true }
      filesDeleted := f.filesDeleted + 1 } with hg
    have hDel : f.Delete p = g.deleteChildren p := by
      simp [Delete, deleteIndividual, hget, hini, hdir, hg]
    have hkeys : g.files.map Prod.fst = f.files.map Prod.fst :=
      keys_setKey_present f.files p _ (any_eq_true_of_getKey_some hget)
    have hndg : (g.files.map Prod.fst).Nodup := by rw [hkeys]; exact hnd
    obtain ⟨h, hok, hout, hin⟩ := deleteChildren_spec g p hndg
    refine ⟨h, by rw [hDel]; exact hok, ?_⟩
    intro q j hq hpref
    by_cases hqp : q = p
    · subst hqp
      have hij : j = i := by
        rw [hget] at hq
        exact ((Option.some.injEq _ _).mp hq).symm
      subst hij
      have hgq : getKey g.files q = some { j with wasDeleted := true } :=
        getKey_setKey_self f.files q _
      have hfin := hin q { j with wasDeleted := true } hgq hpref
      rw [if_pos (show FileInfo.IsInitial { j with wasDeleted := true } = true from hini)] at hfin
      constructor
      · intro hnew
        rw [isInitial_true_iff] at hini
        rw [hini] at hnew
        exact absurd hnew (by simp)
      · intro _
        exact ⟨{ j with wasDeleted := true }, hfin, rfl⟩
    · have hgq : getKey g.files q = some j := by
        rw [show g.files = setKey f.files p { i with wasDeleted := true } from rfl,
          getKey_setKey_ne f.files p q _ hqp]
        exact hq
      have hfin := hin q j hgq hpref
      constructor
      · intro hnew
        rw [if_neg (by rw [Bool.not_eq_true, isInitial_false_iff]; exact hnew)] at hfin
        exact hfin
      · intro hisi
        rw [if_pos ((isInitial_true_iff j).mpr hisi)] at hfin
        exact ⟨{ j with wasDeleted := true }, hfin, rfl⟩
  · -- New directory: removed outright first, then the cascade over survivors
    set g : FileMap := { f with
      files := delKey f.files p
      filesCreated := f.filesCreated - 1 } with hg
    have hDel : f.Delete p = g.deleteChildren p := by
      simp [Delete, deleteIndividual, hget, hini, hdir, hg]
    have hndg : (g.files.map Prod.fst).Nodup := by
      rw [show g.files = delKey f.files p from rfl, keys_delKey]
      exact hnd.filter _
    obtain ⟨h, hok, hout, hin⟩ := deleteChildren_spec g p hndg
    refine ⟨h, by rw [hDel]; exact hok, ?_⟩
    intro q j hq hpref
    by_cases hqp : q = p
    · subst hqp
      have hij : j = i := by
        rw [hget] at hq
        exact ((Option.some.injEq _ _).mp hq).symm
      subst hij
      have hgq : getKey g.files q = none := getKey_delKey_self f.files q
      have hfin : getKey h.files q = none := by
        rw [hout q (Or.inl hgq)]
        exact hgq
      constructor
      · intro _
        exact hfin
      · intro hisi
        rw [Bool.not_eq_true, isInitial_false_iff] at hini
        rw [hini] at hisi
        exact absurd hisi (by simp)
    · have hgq : getKey g.files q = some j := by
        rw [show g.files = delKey f.files p from rfl, getKey_delKey_ne f.files p q hqp]
        exact hq
      have hfin := hin q j hgq hpref
      constructor
      · intro hnew
        rw [if_neg (by rw [Bool.not_eq_true, isInitial_false_iff]; exact hnew)] at hfin
        exact hfin
      · intro hisi
        rw [if_pos ((isInitial_true_iff j).mpr hisi)] at hfin
        exact ⟨{ j with wasDeleted := true }, hfin, rfl⟩

end FileMap

/-! ### Claim theorems for the file ledger -/

/-- **C4**: `Delete` on an Initial non-directory entry tombstones it
(`wasDeleted = true`), bumps `filesDeleted`, and keeps the entry in the map;
on a New non-directory entry it removes the entry and drops `filesCreated`;
and on a tracked directory the delete cascades to every tracked path having
the directory path as a string prefix, removing New entries and tombstoning
Initial entries. -/
theorem C4_delete_semantics (f : FileMap) (p : String) (i : FileInfo)
    (hnd : (f.files.map Prod.fst).Nodup)
    (hget : getKey f.files p = some i) :
    (i.fileType = FileType.initial → i.isDir = false →
      f.Delete p = Except.ok { f with
        files := setKey f.files p { i with wasDeleted := true }
        filesDeleted := f.filesDeleted + 1 }) ∧
    (i.fileType = FileType.new → i.isDir = false →
      f.Delete p = Except.ok { f with
        files := delKey f.files p
        filesCreated := f.filesCreated - 1 }) ∧
    (i.isDir = true → ∃ f', f.Delete p = Except.ok f' ∧
      ∀ q j, getKey f.files q = some j → hasPref q p = true →
        (j.fileType = FileType.new → getKey f'.files q = none) ∧
        (j.fileType = FileType.initial →
          ∃ j', getKey f'.files q = some j' ∧ j'.wasDeleted = true)) := by
  refine ⟨?_, ?_, ?_⟩
  · intro hty hdir
    simp [FileMap.Delete, FileMap.deleteIndividual, hget, (isInitial_true_iff i).mpr hty, hdir]
  · intro hty hdir
    have hini : i.IsInitial = false := (isInitial_false_iff i).mpr hty
    simp [FileMap.Delete, FileMap.deleteIndividual, hget, hini, hdir]
  · intro hdir
    exact FileMap.delete_dir_cascade f p i hnd hget hdir

/-- Sample ledger for the C4 witness: an Initial directory with one New and
one Initial descendant. -/
def exDirInfo : FileInfo := { isDir := true, fileType := FileType.initial }

def exDirLedger : FileMap :=
  { files := [("/d", exDirInfo),
              ("/d/x", { isDir := false, fileType := FileType.new }),
              ("/d/y", { isDir := false, fileType := FileType.initial })]
    filesCreated := 1
    filesDeleted := 0 }

theorem C4_delete_semantics_witness :
    ((exDirLedger.files.map Prod.fst).Nodup ∧
      getKey exDirLedger.files "/d" = some exDirInfo ∧
      exDirInfo.isDir = true ∧ hasPref "/d/x" "/d" = true) ∧
    (∃ f', exDirLedger.Delete "/d" = Except.ok f' ∧ getKey f'.files "/d/x" = none) := by
  obtain ⟨f', hok, hcascade⟩ :=
    (C4_delete_semantics exDirLedger "/d" exDirInfo (by decide) (by decide)).2.2 rfl
  exact ⟨⟨by decide, by decide, rfl, by decide⟩, f', hok,
    (hcascade "/d/x" { isDir := false, fileType := FileType.new }
      (by decide) (by decide)).1 rfl⟩

/-- **C6**: `AddWrite` bumps the tracked entry's `writes` by one, except when
`pendingSwap` is set, in which case it succeeds leaving the ledger completely
unchanged; it returns `ErrUnknownFile` (with the map unchanged) exactly when
the path is untracked. -/
theorem C6_addWrite_semantics (f : FileMap) (p : String) :
    (∀ i, getKey f.files p = some i →
      (i.pendingSwap = false →
        f.AddWrite p = Except.ok { f with
          files := setKey f.files p { i with writes := i.writes + 1 } }) ∧
      (i.pendingSwap = true → f.AddWrite p = Except.ok f)) ∧
    (f.AddWrite p = Except.error FileMapErr.unknownFile ↔ getKey f.files p = none) := by
  constructor
  · intro i hi
    constructor
    · intro hswap
      simp [FileMap.AddWrite, hi, hswap]
    · intro hswap
      simp [FileMap.AddWrite, hi, hswap]
  · constructor
    · intro herr
      cases hg : getKey f.files p with
      | none => rfl
      | some i =>
        simp only [FileMap.AddWrite, hg] at herr
        by_cases hswap : i.pendingSwap = true
        · rw [if_pos hswap] at herr
          exact absurd herr (by simp)
        · rw [if_neg hswap] at herr
          exact absurd herr (by simp)
    · intro hnone
      simp [FileMap.AddWrite, hnone]

def exWInfo : FileInfo := { isDir := false, fileType := FileType.new, writes := 3 }

def exWLedger : FileMap := { files := [("w", exWInfo)], filesCreated := 1, filesDeleted := 0 }

theorem C6_addWrite_semantics_witness :
    (getKey exWLedger.files "w" = some exWInfo ∧ exWInfo.pendingSwap = false) ∧
    exWLedger.AddWrite "w" = Except.ok { exWLedger with
      files := setKey exWLedger.files "w" { exWInfo with writes := exWInfo.writes + 1 } } :=
  ⟨⟨by decide, rfl⟩, ((C6_addWrite_semantics exWLedger "w").1 exWInfo (by decide)).1 rfl⟩

/-- **C1** (claim violated by the code): evaluating the ledger on the
sequence AddFile(Initial) / Delete / Delete — reachable in a session as
delete, re-create (ignored as a duplicate create), delete again — leaves
`filesDeleted = 2` while only one tracked Initial entry is tombstoned, so
`filesDeleted` does not equal the count of Initial entries with
`wasDeleted = true`. -/
def repeatDeleteLedger : FileMap :=
  { files := [("a", { isDir := false, fileType := FileType.initial, wasDeleted := true })]
    filesCreated := 0
    filesDeleted := 2 }

theorem C1_filesDeleted_diverges_on_repeat_delete :
    ∃ f₃ : FileMap,
      (NewFileMap.AddFile "a" { isDir := false, fileType := FileType.initial } >>= fun f₁ =>
        f₁.Delete "a" >>= fun f₂ => f₂.Delete "a") = Except.ok f₃ ∧
      f₃.filesDeleted = 2 ∧ f₃.tombstoneCount = 1 ∧ f₃.filesDeleted ≠ f₃.tombstoneCount := by
  refine ⟨repeatDeleteLedger, ?_, by decide, ?_, by decide⟩
  · rfl
  · decide

/-! ### `pkg/files/events.go`: the event reconciler's create handler -/

inductive EventType where
  | unknown
  | chmod
  | create
  | remove
  | rename
  | write
  deriving DecidableEq, Repr

/-- `files.Event`: an fsnotify notification; `op` is the fsnotify bitmask. -/
structure Event where
  name : String
  op : Nat
  deriving DecidableEq, Repr

def fsnotifyCreate : Nat := 1
def fsnotifyWrite : Nat := 2
def fsnotifyRemove : Nat := 4
def fsnotifyRename : Nat := 8
def fsnotifyChmod : Nat := 16

/-- `fsnotify.Op.Has`: bit test on the operation mask. -/
def Event.hasOp (e : Event) (flag : Nat) : Bool := e.op &&& flag ≠ 0

/-- `Event.Type()` from `pkg/files/events.go`: classification priority
Chmod, Create, Remove, Rename, Write, Unknown. -/
def Event.eventType (e : Event) : EventType :=
  if e.hasOp fsnotifyChmod then .chmod
  else if e.hasOp fsnotifyCreate then .create
  else if e.hasOp fsnotifyRemove then .remove
  else if e.hasOp fsnotifyRename then .rename
  else if e.hasOp fsnotifyWrite then .write
  else .unknown

/-- `files.pendingDelete`: timestamp is an abstract tick count. -/
structure PendingDelete where
  timestamp : Nat
  event : Event
  initialFile : Bool
  deriving DecidableEq, Repr

/-- The reconciler state `handleCreate` reads and writes: the ledger and the
pending-delete map.  The fsnotify watcher handle and channels carry no
reconciliation state and are omitted. -/
structure Monitor where
  fileMap : FileMap
  pendingDeletes : List (String × PendingDelete)
  deriving DecidableEq, Repr

inductive HandleErr where
  | statFailed
  | addFileFailed (e : FileMapErr)
  | watchFailed
  deriving DecidableEq, Repr

/-- `Monitor.handleCreate` from `pkg/files/events.go`.  External effects are
parameters: `stat` models `os.Stat` (`some isDir` on success), and
`watchDir` models `WatchDirRecursive`'s effect on the ledger (a filesystem
walk; it returns the updated ledger and a success flag).  The `pushEvent`
helper is called by this revision of `events.go` but its body is not in the
sources; it is Modelled from the spec: pushing delivers the event on the
reconciler's `Events` channel, recorded here in the emitted-events list.
The result is (new state, emitted events, error). -/
def Monitor.handleCreate (stat : String → Option Bool)
    (watchDir : FileMap → String → FileMap × Bool)
    (m : Monitor) (event : Event) : Monitor × List Event × Option HandleErr :=
  match getKey m.pendingDeletes event.name with
  | some _ =>
    -- Editor swap detected: drop the pending delete, count a single write,
    -- log on AddSwapWrite failure; nothing is pushed downstream.
    let pds := delKey m.pendingDeletes event.name
    match m.fileMap.AddSwapWrite event.name with
    | .ok fm => ({ fileMap := fm, pendingDeletes := pds }, [], none)
    | .error _ => ({ m with pendingDeletes := pds }, [], none)
  | none =>
    if (getKey m.fileMap.files event.name).isSome then
      -- Duplicate creation request: ignore.
      (m, [], none)
    else
      match stat event.name with
      | none => (m, [], some .statFailed)
      | some isDir =>
        match m.fileMap.AddFile event.name { isDir := isDir, fileType := FileType.new } with
        | .error e => (m, [], some (.addFileFailed e))
        | .ok fm =>
          if isDir then
            let wres := watchDir fm event.name
            if wres.2 then ({ m with fileMap := wres.1 }, [event], none)
            else ({ m with fileMap := wres.1 }, [], some .watchFailed)
          else
            ({ m with fileMap := fm }, [event], none)

/-! ### Claim theorems for the create handler -/

/-- Sample reconciler state within the swap window: path "a" is tracked
(Initial, pendingSwap set) and has a pending delete recorded. -/
def swapInfo : FileInfo :=
  { isDir := false, fileType := FileType.initial, pendingSwap := true }

def swapPd : PendingDelete :=
  { timestamp := 0, event := { name := "a", op := fsnotifyRemove }, initialFile := true }

def swapMonitor : Monitor :=
  { fileMap := { files := [("a", swapInfo)], filesCreated := 0, filesDeleted := 0 }
    pendingDeletes := [("a", swapPd)] }

def swapCreateEvent : Event := { name := "a", op := fsnotifyCreate }

/-- **C2** (counterexample): with a pending delete recorded for "a", the
create handler takes the swap branch (the write is recorded, `writes = 1`)
yet emits nothing downstream — no synthesized Write event is pushed on the
Events channel, contrary to the claim. -/
theorem C2_swap_create_pushes_no_event_cex :
    (Monitor.handleCreate (fun _ => none) (fun fm _ => (fm, true))
        swapMonitor swapCreateEvent).2.1 = [] ∧
    (getKey (Monitor.handleCreate (fun _ => none) (fun fm _ => (fm, true))
        swapMonitor swapCreateEvent).1.fileMap.files "a").map FileInfo.writes = some 1 := by
  constructor
  · rfl
  · rfl

/-- **C2** (amended): when a Create event arrives for a path with a
PendingDelete recorded and a tracked ledger entry, `handleCreate` removes
the pending delete, records exactly one write via `AddSwapWrite`, leaves
`filesCreated` and `filesDeleted` unchanged, and pushes no event downstream
(the emitted-events list is empty). -/
theorem C2_swap_create_amended (stat : String → Option Bool)
    (watchDir : FileMap → String → FileMap × Bool) (m : Monitor) (ev : Event)
    (pd : PendingDelete) (i : FileInfo)
    (hpd : getKey m.pendingDeletes ev.name = some pd)
    (hi : getKey m.fileMap.files ev.name = some i) :
    ∃ m', Monitor.handleCreate stat watchDir m ev = (m', [], none) ∧
      getKey m'.pendingDeletes ev.name = none ∧
      (getKey m'.fileMap.files ev.name).map FileInfo.writes = some 1 ∧
      m'.fileMap.filesCreated = m.fileMap.filesCreated ∧
      m'.fileMap.filesDeleted = m.fileMap.filesDeleted := by
  cases hswap : m.fileMap.AddSwapWrite ev.name with
  | error e =>
    rw [FileMap.AddSwapWrite, hi] at hswap
    exact absurd hswap (by simp)
  | ok fm =>
    refine ⟨{ fileMap := fm, pendingDeletes := delKey m.pendingDeletes ev.name },
      ?_, ?_, ?_, ?_, ?_⟩
    · simp [Monitor.handleCreate, hpd, hswap]
    · exact getKey_delKey_self m.pendingDeletes ev.name
    · simp only [FileMap.AddSwapWrite, hi, Except.ok.injEq] at hswap
      cases hswap
      rw [getKey_setKey_self]
      rfl
    · simp only [FileMap.AddSwapWrite, hi, Except.ok.injEq] at hswap
      cases hswap
      rfl
    · simp only [FileMap.AddSwapWrite, hi, Except.ok.injEq] at hswap
      cases hswap
      rfl

theorem C2_swap_create_amended_witness :
    (getKey swapMonitor.pendingDeletes "a" = some swapPd ∧
      getKey swapMonitor.fileMap.files "a" = some swapInfo) ∧
    (∃ m', Monitor.handleCreate (fun _ => none) (fun fm _ => (fm, true))
        swapMonitor swapCreateEvent = (m', [], none) ∧
      getKey m'.pendingDeletes "a" = none ∧
      (getKey m'.fileMap.files "a").map FileInfo.writes = some 1 ∧
      m'.fileMap.filesCreated = swapMonitor.fileMap.filesCreated ∧
      m'.fileMap.filesDeleted = swapMonitor.fileMap.filesDeleted) :=
  ⟨⟨by decide, by decide⟩,
    C2_swap_create_amended (fun _ => none) (fun fm _ => (fm, true)) swapMonitor
      swapCreateEvent swapPd swapInfo (by decide) (by decide)⟩

/-- **C7**: two Create notifications for the same previously-untracked,
non-directory path (with no pending delete) produce exactly one ledger entry
for that path and bump `filesCreated` by exactly one; the first create emits
the event, the second is ignored with no state change and no event. -/
theorem C7_duplicate_create_idempotent (stat : String → Option Bool)
    (watchDir : FileMap → String → FileMap × Bool) (m : Monitor) (ev : Event)
    (hnpd : getKey m.pendingDeletes ev.name = none)
    (hnew : getKey m.fileMap.files ev.name = none)
    (hstat : stat ev.name = some false) :
    ∃ m₁, Monitor.handleCreate stat watchDir m ev = (m₁, [ev], none) ∧
      countKey m₁.fileMap.files ev.name = 1 ∧
      m₁.fileMap.filesCreated = m.fileMap.filesCreated + 1 ∧
      m₁.fileMap.filesDeleted = m.fileMap.filesDeleted ∧
      Monitor.handleCreate stat watchDir m₁ ev = (m₁, [], none) := by
  refine ⟨{ m with fileMap := { m.fileMap with
      files := setKey m.fileMap.files ev.name { isDir := false, fileType := FileType.new },
      filesCreated := m.fileMap.filesCreated + 1 } }, ?_, ?_, rfl, rfl, ?_⟩
  · simp [Monitor.handleCreate, hnpd, hnew, hstat, FileMap.AddFile]
  · exact countKey_setKey_absent m.fileMap.files ev.name _ hnew
  · have htracked : (getKey (setKey m.fileMap.files ev.name
        { isDir := false, fileType := FileType.new }) ev.name).isSome := by
      rw [getKey_setKey_self]
      rfl
    simp [Monitor.handleCreate, hnpd, htracked]

/-! ### File-type preservation (C5) -/

/-- Every entry of `l'` descends from an entry of `l` at the same path with
the same `fileType`. -/
def typesFromL (l l' : List (String × FileInfo)) : Prop :=
  ∀ q j', getKey l' q = some j' → ∃ j, getKey l q = some j ∧ j'.fileType = j.fileType

/-- Every path tracked before and after keeps its `fileType`. -/
def typePreserved (f f' : FileMap) : Prop :=
  ∀ q j j', getKey f.files q = some j → getKey f'.files q = some j' →
    j'.fileType = j.fileType

theorem typesFromL_refl (l : List (String × FileInfo)) : typesFromL l l :=
  fun _ j' h => ⟨j', h, rfl⟩

theorem typesFromL_trans {a b c : List (String × FileInfo)}
    (hab : typesFromL a b) (hbc : typesFromL b c) : typesFromL a c := by
  intro q j' h
  obtain ⟨jm, hm, hty⟩ := hbc q j' h
  obtain ⟨j, hj, hty'⟩ := hab q jm hm
  exact ⟨j, hj, hty.trans hty'⟩

theorem typePreserved_of_typesFromL {f f' : FileMap}
    (h : typesFromL f.files f'.files) : typePreserved f f' := by
  intro q j j' hj hj'
  obtain ⟨j₀, hj₀, hty⟩ := h q j' hj'
  rw [hj] at hj₀
  cases hj₀
  exact hty

theorem typesFromL_setKey_same {l : List (String × FileInfo)} {p : String} {i v : FileInfo}
    (hget : getKey l p = some i) (hty : v.fileType = i.fileType) :
    typesFromL l (setKey l p v) := by
  intro q j' hq'
  by_cases hqp : q = p
  · subst hqp
    rw [getKey_setKey_self] at hq'
    cases hq'
    exact ⟨i, hget, hty⟩
  · rw [getKey_setKey_ne _ _ _ _ hqp] at hq'
    exact ⟨j', hq', rfl⟩

theorem typesFromL_delKey (l : List (String × FileInfo)) (p : String) :
    typesFromL l (delKey l p) := by
  intro q j' hq'
  by_cases hqp : q = p
  · subst hqp
    rw [getKey_delKey_self] at hq'
    exact absurd hq' (by simp)
  · rw [getKey_delKey_ne _ _ _ hqp] at hq'
    exact ⟨j', hq', rfl⟩

theorem typesFromL_deleteOne {f f' : FileMap} {p : String}
    (h : f.deleteOne p = Except.ok f') : typesFromL f.files f'.files := by
  cases hg : getKey f.files p with
  | none =>
    rw [FileMap.deleteOne, hg] at h
    exact absurd h (by simp)
  | some i =>
    intro q j' hq'
    by_cases hqp : q = p
    · subst hqp
      have hself := FileMap.deleteOne_getKey_self hg h
      by_cases hi : i.IsInitial = true
      · rw [if_pos hi] at hself
        rw [hself] at hq'
        cases hq'
        exact ⟨i, hg, rfl⟩
      · rw [if_neg hi] at hself
        rw [hself] at hq'
        exact absurd hq' (by simp)
    · rw [FileMap.deleteOne_getKey_ne q h hqp] at hq'
      exact ⟨j', hq', rfl⟩

theorem typesFromL_foldlDelete (ps : List String) (g h : FileMap)
    (hok : ps.foldlM (fun acc p => acc.deleteOne p) g = Except.ok h) :
    typesFromL g.files h.files := by
  induction ps generalizing g with
  | nil =>
    rw [List.foldlM_nil] at hok
    cases hok
    exact typesFromL_refl _
  | cons p rest ih =>
    rw [List.foldlM_cons] at hok
    cases hdel : g.deleteOne p with
    | error e =>
      rw [hdel] at hok
      cases hok
    | ok g₁ =>
      rw [hdel] at hok
      exact typesFromL_trans (typesFromL_deleteOne hdel) (ih g₁ hok)

theorem typesFromL_deleteChildren {g h : FileMap} {p : String}
    (hok : g.deleteChildren p = Except.ok h) : typesFromL g.files h.files := by
  exact typesFromL_foldlDelete _ g h (by simpa [FileMap.deleteChildren] using hok)

theorem typesFromL_delete {f f' : FileMap} {p : String}
    (h : f.Delete p = Except.ok f') : typesFromL f.files f'.files := by
  cases hg : getKey f.files p with
  | none =>
    rw [FileMap.Delete, FileMap.deleteIndividual, hg] at h
    exact absurd h (by simp)
  | some i =>
    simp only [FileMap.Delete, FileMap.deleteIndividual, hg] at h
    by_cases hi : i.IsInitial = true
    · rw [if_pos hi] at h
      have hstep : typesFromL f.files
          (setKey f.files p { i with wasDeleted := true }) :=
        typesFromL_setKey_same hg rfl
      by_cases hdir : i.isDir = true
      · rw [if_pos (show (true && i.isDir) = true from by simp [hdir])] at h
        exact typesFromL_trans hstep (typesFromL_deleteChildren h)
      · rw [if_neg (show ¬ (true && i.isDir) = true from by simp [hdir])] at h
        cases h
        exact hstep
    · rw [if_neg hi] at h
      have hstep : typesFromL f.files (delKey f.files p) := typesFromL_delKey f.files p
      by_cases hdir : i.isDir = true
      · rw [if_pos (show (true && i.isDir) = true from by simp [hdir])] at h
        exact typesFromL_trans hstep (typesFromL_deleteChildren h)
      · rw [if_neg (show ¬ (true && i.isDir) = true from by simp [hdir])] at h
        cases h
        exact hstep

theorem typePreserved_addWrite {f f' : FileMap} {p : String}
    (h : f.AddWrite p = Except.ok f') : typePreserved f f' := by
  cases hg : getKey f.files p with
  | none =>
    rw [FileMap.AddWrite, hg] at h
    exact absurd h (by simp)
  | some i =>
    simp only [FileMap.AddWrite, hg] at h
    by_cases hswap : i.pendingSwap = true
    · rw [if_pos hswap] at h
      cases h
      exact fun q j j' hj hj' => by rw [hj] at hj'; cases hj'; rfl
    · rw [if_neg hswap] at h
      cases h
      exact typePreserved_of_typesFromL (typesFromL_setKey_same hg rfl)

theorem typePreserved_addSwapWrite {f f' : FileMap} {p : String}
    (h : f.AddSwapWrite p = Except.ok f') : typePreserved f f' := by
  cases hg : getKey f.files p with
  | none =>
    rw [FileMap.AddSwapWrite, hg] at h
    exact absurd h (by simp)
  | some i =>
    simp only [FileMap.AddSwapWrite, hg, Except.ok.injEq] at h
    cases h
    exact typePreserved_of_typesFromL (typesFromL_setKey_same hg rfl)

theorem typePreserved_markPendingSwap (f : FileMap) (p : String) :
    typePreserved f (f.MarkPendingSwap p) := by
  cases hg : getKey f.files p with
  | none =>
    intro q j j' hj hj'
    simp only [FileMap.MarkPendingSwap, hg] at hj'
    rw [hj] at hj'
    cases hj'
    rfl
  | some i =>
    intro q j j' hj hj'
    simp only [FileMap.MarkPendingSwap, hg] at hj'
    obtain ⟨j₀, hj₀, hty⟩ :=
      @typesFromL_setKey_same f.files p i { i with pendingSwap := true } hg rfl q j' hj'
    rw [hj] at hj₀
    cases hj₀
    exact hty

theorem typePreserved_delete {f f' : FileMap} {p : String}
    (h : f.Delete p = Except.ok f') : typePreserved f f' :=
  typePreserved_of_typesFromL (typesFromL_delete h)

theorem addFile_resurrect_stores_info {f f' : FileMap} {p : String} {i info : FileInfo}
    (hget : getKey f.files p = some i) (hdel : i.wasDeleted = true)
    (h : f.AddFile p info = Except.ok f') : getKey f'.files p = some info := by
  simp only [FileMap.AddFile, hget, hdel, Bool.not_true, Bool.false_eq_true, if_false,
    Except.ok.injEq] at h
  by_cases hi : i.IsInitial = true
  · rw [if_neg (by simp [hi])] at h
    cases h
    exact getKey_setKey_self f.files p info
  · rw [if_pos (by simpa using hi)] at h
    cases h
    exact getKey_setKey_self f.files p info

theorem handleCreate_preserves_tracked_type (stat : String → Option Bool)
    (watchDir : FileMap → String → FileMap × Bool) (m : Monitor) (ev : Event)
    (i : FileInfo) (hi : getKey m.fileMap.files ev.name = some i) :
    ∀ j', getKey (Monitor.handleCreate stat watchDir m ev).1.fileMap.files ev.name = some j' →
      j'.fileType = i.fileType := by
  intro j' hj'
  cases hpd : getKey m.pendingDeletes ev.name with
  | some pd =>
    cases hswap : m.fileMap.AddSwapWrite ev.name with
    | ok fm =>
      rw [show (Monitor.handleCreate stat watchDir m ev).1 =
          { fileMap := fm, pendingDeletes := delKey m.pendingDeletes ev.name } from by
        simp [Monitor.handleCreate, hpd, hswap]] at hj'
      exact typePreserved_addSwapWrite hswap ev.name i j' hi hj'
    | error e =>
      rw [show (Monitor.handleCreate stat watchDir m ev).1 =
          { m with pendingDeletes := delKey m.pendingDeletes ev.name } from by
        simp [Monitor.handleCreate, hpd, hswap]] at hj'
      rw [hi] at hj'
      cases hj'
      rfl
  | none =>
    have hdup : (getKey m.fileMap.files ev.name).isSome := by rw [hi]; rfl
    rw [show (Monitor.handleCreate stat watchDir m ev).1 = m from by
      simp [Monitor.handleCreate, hpd, hdup]] at hj'
    rw [hi] at hj'
    cases hj'
    rfl

/-- The ledger after AddFile(Initial) / Delete / AddFile(New) on path "a":
the resurrecting AddFile has replaced the entry, so its fileType is New. -/
def resurrectLedger : FileMap :=
  { files := [("a", { isDir := false, fileType := FileType.new })]
    filesCreated := 0
    filesDeleted := 1 }

/-- **C5** (counterexample): `AddFile` on a tombstoned Initial entry stores
the caller-supplied info wholesale, so re-adding the path with a New-typed
info changes the stored `fileType` from Initial to New — the claim that
`fileType` is never changed by any later operation fails. -/
theorem C5_fileType_changed_by_resurrecting_addFile_cex :
    (NewFileMap.AddFile "a" { isDir := false, fileType := FileType.initial } >>= fun f₁ =>
      f₁.Delete "a" >>= fun f₂ =>
      f₂.AddFile "a" { isDir := false, fileType := FileType.new }) =
        Except.ok resurrectLedger ∧
    (getKey resurrectLedger.files "a").map FileInfo.fileType = some FileType.new := by
  constructor
  · rfl
  · rfl

def resTomb : FileInfo := { isDir := false, fileType := FileType.initial, wasDeleted := true }

def resInfoNew : FileInfo := { isDir := false, fileType := FileType.new }

def resLedger : FileMap := { files := [("a", resTomb)], filesCreated := 0, filesDeleted := 1 }

def resLedgerAfter : FileMap :=
  { files := [("a", resInfoNew)], filesCreated := 0, filesDeleted := 1 }

/-- **C5** (amended): each tracked entry's `fileType` is unchanged by
`AddWrite`, `AddSwapWrite`, `MarkPendingSwap` and `Delete`; `AddFile` on a
live (not tombstoned) tracked path fails with `ErrFileTracked`, changing
nothing; `AddFile` on a tombstoned entry replaces the entry with the
caller-supplied info (so the stored `fileType` becomes the info's type) —
the one ledger path that can change a stored `fileType`; and the Monitor's
`handleCreate` never changes the `fileType` of an already-tracked path —
re-creation of a deleted Initial file is ignored there as a duplicate
create, leaving its `fileType` Initial. -/
theorem C5_fileType_amended :
    (∀ (f f' : FileMap) (p : String), f.AddWrite p = Except.ok f' → typePreserved f f') ∧
    (∀ (f f' : FileMap) (p : String), f.AddSwapWrite p = Except.ok f' → typePreserved f f') ∧
    (∀ (f : FileMap) (p : String), typePreserved f (f.MarkPendingSwap p)) ∧
    (∀ (f f' : FileMap) (p : String), f.Delete p = Except.ok f' → typePreserved f f') ∧
    (∀ (f : FileMap) (p : String) (i info : FileInfo),
      getKey f.files p = some i → i.wasDeleted = false →
      f.AddFile p info = Except.error FileMapErr.fileTracked) ∧
    (∀ (f f' : FileMap) (p : String) (i info : FileInfo),
      getKey f.files p = some i → i.wasDeleted = true →
      f.AddFile p info = Except.ok f' → getKey f'.files p = some info) ∧
    (∀ (stat : String → Option Bool) (watchDir : FileMap → String → FileMap × Bool)
      (m : Monitor) (ev : Event) (i : FileInfo),
      getKey m.fileMap.files ev.name = some i →
      ∀ j', getKey (Monitor.handleCreate stat watchDir m ev).1.fileMap.files ev.name = some j' →
        j'.fileType = i.fileType) :=
  ⟨fun _ _ _ h => typePreserved_addWrite h,
   fun _ _ _ h => typePreserved_addSwapWrite h,
   fun f p => typePreserved_markPendingSwap f p,
   fun _ _ _ h => typePreserved_delete h,
   fun _ _ _ _ hget hlive => by simp [FileMap.AddFile, hget, hlive],
   fun _ _ _ _ _ hget hdel h => addFile_resurrect_stores_info hget hdel h,
   fun stat watchDir m ev i hi => handleCreate_preserves_tracked_type stat watchDir m ev i hi⟩

theorem C5_fileType_amended_witness :
    (getKey resLedger.files "a" = some resTomb ∧ resTomb.wasDeleted = true ∧
      resLedger.AddFile "a" resInfoNew = Except.ok resLedgerAfter) ∧
    (getKey resLedgerAfter.files "a" = some resInfoNew ∧
      resLedgerAfter.AddFile "a" resTomb = Except.error FileMapErr.fileTracked) := by
  refine ⟨⟨by decide, rfl, by rfl⟩, ?_, ?_⟩
  · exact C5_fileType_amended.2.2.2.2.2.1 resLedger resLedgerAfter "a" resTomb resInfoNew
      (by decide) rfl (by rfl)
  · exact C5_fileType_amended.2.2.2.2.1 resLedgerAfter "a" resInfoNew resTomb
      (by decide) rfl

/-! ### Claim theorems for the dependency differ -/

theorem diff_updated_mem_pkg {latest initial : List Dependency} {n : String}
    {u : UpdatedDependency}
    (hu : u ∈ (Dependencies.Diff latest n initial).updatedDependencies) :
    getKey (uniqueByPackage latest) u.latest.Package = some u.latest ∧
    getKey (uniqueByPackage initial) u.latest.Package = some u.initial ∧
    u.initial.version ≠ u.latest.version ∧ u.initial.Package = u.latest.Package := by
  obtain ⟨k, dl, di, hlat, hini, hver, rfl⟩ := (diff_updated_char latest initial n u).mp hu
  have hkl : dl.Package = k := (getKey_uniqueByPackage_some hlat).1
  have hki : di.Package = k := (getKey_uniqueByPackage_some hini).1
  refine ⟨?_, ?_, hver, ?_⟩
  · show getKey (uniqueByPackage latest) dl.Package = some dl
    rw [hkl]; exact hlat
  · show getKey (uniqueByPackage initial) dl.Package = some di
    rw [hkl]; exact hini
  · show di.Package = dl.Package
    rw [hkl, hki]

/-- **C3**: the differ reports as updated exactly the package identities
present in both unique-by-package maps whose version strings differ (paired
{initial, latest}); an identity present on both sides with equal versions is
reported in none of the three lists; and a dependency whose url changes
while name and version stay the same yields one removed identity plus one
added identity, never an updated entry. -/
theorem C3_diff_updated_and_url_change (latest initial : List Dependency) (n : String) :
    (∀ u, u ∈ (Dependencies.Diff latest n initial).updatedDependencies ↔
      ∃ k dl di, getKey (uniqueByPackage latest) k = some dl ∧
        getKey (uniqueByPackage initial) k = some di ∧
        di.version ≠ dl.version ∧ u = ⟨di, dl⟩) ∧
    (∀ k dl di, getKey (uniqueByPackage latest) k = some dl →
      getKey (uniqueByPackage initial) k = some di → di.version = dl.version →
      k ∉ (Dependencies.Diff latest n initial).newDependencies.map Dependency.Package ∧
      k ∉ (Dependencies.Diff latest n initial).deletedDependencies.map Dependency.Package ∧
      ∀ u ∈ (Dependencies.Diff latest n initial).updatedDependencies,
        u.latest.Package ≠ k ∧ u.initial.Package ≠ k) ∧
    (∀ d₁ d₂, d₁ ∈ initial → d₂ ∈ latest → d₁.name = d₂.name → d₁.version = d₂.version →
      d₁.url ≠ d₂.url → d₁.Package ∉ latest.map Dependency.Package →
      d₂.Package ∉ initial.map Dependency.Package →
      d₁.Package ∈
        (Dependencies.Diff latest n initial).deletedDependencies.map Dependency.Package ∧
      d₂.Package ∈
        (Dependencies.Diff latest n initial).newDependencies.map Dependency.Package ∧
      ∀ u ∈ (Dependencies.Diff latest n initial).updatedDependencies,
        u.latest.Package ≠ d₂.Package ∧ u.initial.Package ≠ d₁.Package) := by
  refine ⟨fun u => diff_updated_char latest initial n u, ?_, ?_⟩
  · intro k dl di hlat hini hver
    refine ⟨?_, ?_, ?_⟩
    · rw [diff_added_char]
      rintro ⟨-, habs⟩
      refine habs ?_
      rw [← getKey_uniqueByPackage_isSome, hini]
      rfl
    · rw [diff_removed_char]
      rintro ⟨-, habs⟩
      refine habs ?_
      rw [← getKey_uniqueByPackage_isSome, hlat]
      rfl
    · intro u hu
      obtain ⟨hul, hui, huv, hupkg⟩ := diff_updated_mem_pkg hu
      constructor
      · intro hc
        rw [hc] at hul hui
        rw [hlat] at hul
        rw [hini] at hui
        cases hul
        cases hui
        exact huv hver
      · intro hc
        rw [hupkg] at hc
        rw [hc] at hul hui
        rw [hlat] at hul
        rw [hini] at hui
        cases hul
        cases hui
        exact huv hver
  · intro d₁ d₂ h₁ h₂ _ _ _ hnotlat hnotini
    refine ⟨?_, ?_, ?_⟩
    · rw [diff_removed_char]
      exact ⟨List.mem_map.mpr ⟨d₁, h₁, rfl⟩, hnotlat⟩
    · rw [diff_added_char]
      exact ⟨List.mem_map.mpr ⟨d₂, h₂, rfl⟩, hnotini⟩
    · intro u hu
      obtain ⟨hul, hui, _, hupkg⟩ := diff_updated_mem_pkg hu
      constructor
      · intro hc
        refine hnotini ?_
        rw [← hc, ← getKey_uniqueByPackage_isSome, hui]
        rfl
      · intro hc
        refine hnotlat ?_
        rw [← hc, hupkg, ← getKey_uniqueByPackage_isSome, hul]
        rfl

def urlChangeInitial : List Dependency := [{ name := "p", url := "u1", version := "1.0" }]

def urlChangeLatest : List Dependency := [{ name := "p", url := "u2", version := "1.0" }]

theorem C3_diff_updated_and_url_change_witness :
    (({ name := "p", url := "u1", version := "1.0" } : Dependency) ∈ urlChangeInitial ∧
      ({ name := "p", url := "u2", version := "1.0" } : Dependency) ∈ urlChangeLatest ∧
      (Dependency.mk "p" "u1" "1.0").Package ∉ urlChangeLatest.map Dependency.Package ∧
      (Dependency.mk "p" "u2" "1.0").Package ∉ urlChangeInitial.map Dependency.Package) ∧
    ((Dependency.mk "p" "u1" "1.0").Package ∈
      (Dependencies.Diff urlChangeLatest "f" urlChangeInitial).deletedDependencies.map
        Dependency.Package ∧
     (Dependency.mk "p" "u2" "1.0").Package ∈
      (Dependencies.Diff urlChangeLatest "f" urlChangeInitial).newDependencies.map
        Dependency.Package) := by
  have h := (C3_diff_updated_and_url_change urlChangeLatest urlChangeInitial "f").2.2
    (Dependency.mk "p" "u1" "1.0") (Dependency.mk "p" "u2" "1.0")
    (by decide) (by decide) rfl rfl (by decide) (by decide) (by decide)
  exact ⟨⟨by decide, by decide, by decide, by decide⟩, h.1, h.2.1⟩

/-- **C8**: for any two snapshots A and B, the package identities reported
as added by Diff(A, B) are exactly those reported as removed by Diff(B, A),
and vice versa — equality as sets of package identities. -/
theorem C8_diff_symmetry (A B : List Dependency) (nab nba k : String) :
    (k ∈ (Dependencies.Diff A nab B).newDependencies.map Dependency.Package ↔
      k ∈ (Dependencies.Diff B nba A).deletedDependencies.map Dependency.Package) ∧
    (k ∈ (Dependencies.Diff A nab B).deletedDependencies.map Dependency.Package ↔
      k ∈ (Dependencies.Diff B nba A).newDependencies.map Dependency.Package) := by
  constructor
  · rw [diff_added_char A B nab k, diff_removed_char B A nba k]
  · rw [diff_removed_char A B nab k, diff_added_char B A nba k]

/-- **C10** (counterexample): `Package()` does return the string
`"<unknown>"` — for a dependency whose url field itself is `"<unknown>"`
and whose name is empty — so "never returns \"<unknown>\"" fails as
stated. -/
theorem C10_package_unknown_cex :
    Dependency.Package { name := "", url := "<unknown>", version := "" } = "<unknown>" := rfl

/-- **C10** (amended): `Package()` returns the url when the name is empty,
the name when the url is empty, and "name (url)" when both are non-empty;
the fallback branch is unreachable, so the result is `"<unknown>"` only
when the name or url field itself equals `"<unknown>"`; when both fields
are empty the result is the empty string. -/
theorem C10_package_amended (d : Dependency) :
    (d.name = "" → d.Package = d.url) ∧
    (d.name ≠ "" → d.url = "" → d.Package = d.name) ∧
    (d.name ≠ "" → d.url ≠ "" → d.Package = d.name ++ " (" ++ d.url ++ ")") ∧
    (d.name = "" → d.url = "" → d.Package = "") ∧
    (d.Package = "<unknown>" → d.name = "<unknown>" ∨ d.url = "<unknown>") := by
  refine ⟨?_, ?_, ?_, ?_, ?_⟩
  · intro hn
    simp [Dependency.Package, hn]
  · intro hn hu
    simp [Dependency.Package, hn, hu]
  · intro hn hu
    simp [Dependency.Package, hn, hu]
  · intro hn hu
    simp [Dependency.Package, hn, hu]
  · intro h
    by_cases hn : d.name = ""
    · right
      rw [show d.Package = d.url from by simp [Dependency.Package, hn]] at h
      exact h
    · by_cases hu : d.url = ""
      · left
        rw [show d.Package = d.name from by simp [Dependency.Package, hn, hu]] at h
        exact h
      · exfalso
        rw [show d.Package = d.name ++ " (" ++ d.url ++ ")" from by
          simp [Dependency.Package, hn, hu]] at h
        have hsp : ' ' ∈ (d.name ++ " (" ++ d.url ++ ")").data := by
          rw [String.data_append, String.data_append, String.data_append]
          simp only [List.mem_append]
          left; left; right
          decide
        rw [h] at hsp
        exact absurd hsp (by decide)

theorem C10_package_amended_witness :
    (("req" : String) ≠ "" ∧ ("" : String) = "") ∧
    (Dependency.mk "req" "" "1.0").Package = "req" :=
  ⟨⟨by decide, rfl⟩, (C10_package_amended ⟨"req", "", "1.0"⟩).2.1 (by decide) rfl⟩

/-! ### Manifest listeners (golang `ModFile`, python `PyProjectFile` /
`RequirementsFile`) -/

/-- Raw manifest bytes; `none` embeds a nil Go byte slice. -/
def ByteContent := List Nat

/-- golang listener's `ModFile`: a tracked `go.mod` with baseline and latest
content. -/
structure ModFile where
  path : String
  initialContent : Option ByteContent
  latestContent : Option ByteContent

/-- `ModFile.Diff`: nil latest content yields no diff; a parse failure of
either snapshot is logged and yields no diff; otherwise the dependency diff
of latest against initial.  `parse` stands for the external
`modfile.Parse`-backed `ParseDeps`. -/
def ModFile.Diff (parse : String → Option ByteContent → Except Unit (List Dependency))
    (m : ModFile) : Option FileDiff :=
  match m.latestContent with
  | none => none
  | some _ =>
    match parse m.path m.initialContent with
    | .error _ => none
    | .ok initialDeps =>
      match parse m.path m.latestContent with
      | .error _ => none
      | .ok latestDeps => some (Dependencies.Diff latestDeps m.path initialDeps)

/-- golang `Listener.Diff`: aggregate per-file diffs, skipping nils. -/
def golangListenerDiff (parse : String → Option ByteContent → Except Unit (List Dependency))
    (modFiles : List ModFile) : List FileDiff :=
  modFiles.filterMap (ModFile.Diff parse)

/-- python listener's `PyProjectFile`. -/
structure PyProjectFile where
  path : String
  initialContent : Option ByteContent
  latestContent : Option ByteContent

/-- `PyProjectFile.Diff`: same shape as `ModFile.Diff`; `parse` stands for
the external toml-backed `ParsePyProjectToml`. -/
def PyProjectFile.Diff (parse : Option ByteContent → Except Unit (List Dependency))
    (p : PyProjectFile) : Option FileDiff :=
  match p.latestContent with
  | none => none
  | some _ =>
    match parse p.initialContent with
    | .error _ => none
    | .ok initialDeps =>
      match parse p.latestContent with
      | .error _ => none
      | .ok latestDeps => some (Dependencies.Diff latestDeps p.path initialDeps)

/-- python listener's `RequirementsFile`; its line parser
`ParseRequirementsTxt` is total (unparseable lines are skipped), embedded as
a total `parse` parameter. -/
structure RequirementsFile where
  path : String
  initialContent : Option ByteContent
  latestContent : Option ByteContent

def RequirementsFile.Diff (parse : Option ByteContent → List Dependency)
    (r : RequirementsFile) : Option FileDiff :=
  match r.latestContent with
  | none => none
  | some _ =>
    some (Dependencies.Diff (parse r.latestContent) r.path (parse r.initialContent))

/-- python `Listener.Diff`: requirements-file diffs then pyproject diffs,
skipping nils. -/
def pythonListenerDiff (parseReq : Option ByteContent → List Dependency)
    (parsePy : Option ByteContent → Except Unit (List Dependency))
    (reqFiles : List RequirementsFile) (pyFiles : List PyProjectFile) : List FileDiff :=
  reqFiles.filterMap (RequirementsFile.Diff parseReq) ++
    pyFiles.filterMap (PyProjectFile.Diff parsePy)

/-- **C9**: if either the baseline or the latest snapshot of a tracked
manifest fails to parse, that file's Diff() yields no diff (and, being a
total function, cannot crash), and removing such a file from a listener's
tracked list leaves the aggregated diff of the other files unchanged. -/
theorem C9_unparseable_manifest_no_diff
    (parseMod : String → Option ByteContent → Except Unit (List Dependency))
    (parsePy : Option ByteContent → Except Unit (List Dependency))
    (parseReq : Option ByteContent → List Dependency) :
    (∀ m : ModFile, ((∃ e, parseMod m.path m.initialContent = .error e) ∨
        (∃ e, parseMod m.path m.latestContent = .error e)) →
      ModFile.Diff parseMod m = none) ∧
    (∀ p : PyProjectFile, ((∃ e, parsePy p.initialContent = .error e) ∨
        (∃ e, parsePy p.latestContent = .error e)) →
      PyProjectFile.Diff parsePy p = none) ∧
    (∀ (fs₁ fs₂ : List ModFile) (f : ModFile), ModFile.Diff parseMod f = none →
      golangListenerDiff parseMod (fs₁ ++ f :: fs₂) = golangListenerDiff parseMod (fs₁ ++ fs₂)) ∧
    (∀ (reqFiles : List RequirementsFile) (ps₁ ps₂ : List PyProjectFile) (p : PyProjectFile),
      PyProjectFile.Diff parsePy p = none →
      pythonListenerDiff parseReq parsePy reqFiles (ps₁ ++ p :: ps₂) =
        pythonListenerDiff parseReq parsePy reqFiles (ps₁ ++ ps₂)) := by
  refine ⟨?_, ?_, ?_, ?_⟩
  · intro m h
    cases hl : m.latestContent with
    | none => simp [ModFile.Diff, hl]
    | some c =>
      cases hpi : parseMod m.path m.initialContent with
      | error e => simp [ModFile.Diff, hl, hpi]
      | ok deps =>
        rcases h with ⟨e, he⟩ | ⟨e, he⟩
        · rw [hpi] at he
          cases he
        · rw [hl] at he
          simp [ModFile.Diff, hl, hpi, he]
  · intro p h
    cases hl : p.latestContent with
    | none => simp [PyProjectFile.Diff, hl]
    | some c =>
      cases hpi : parsePy p.initialContent with
      | error e => simp [PyProjectFile.Diff, hl, hpi]
      | ok deps =>
        rcases h with ⟨e, he⟩ | ⟨e, he⟩
        · rw [hpi] at he
          cases he
        · rw [hl] at he
          simp [PyProjectFile.Diff, hl, hpi, he]
  · intro fs₁ fs₂ f hf
    simp [golangListenerDiff, List.filterMap_append, List.filterMap_cons, hf]
  · intro reqFiles ps₁ ps₂ p hp
    simp [pythonListenerDiff, List.filterMap_append, List.filterMap_cons, hp]

def failParseMod : String → Option ByteContent → Except Unit (List Dependency) :=
  fun _ _ => .error ()

def failParsePy : Option ByteContent → Except Unit (List Dependency) := fun _ => .error ()

def emptyParseReq : Option ByteContent → List Dependency := fun _ => []

def exModFile : ModFile := { path := "go.mod", initialContent := some [], latestContent := some [] }

theorem C9_unparseable_manifest_no_diff_witness :
    ((∃ e, failParseMod exModFile.path exModFile.initialContent = Except.error e) ∧
      ModFile.Diff failParseMod exModFile = none) ∧
    golangListenerDiff failParseMod [exModFile] = golangListenerDiff failParseMod [] := by
  have hthm := C9_unparseable_manifest_no_diff failParseMod failParsePy emptyParseReq
  have hnone : ModFile.Diff failParseMod exModFile = none :=
    hthm.1 exModFile (Or.inl ⟨(), rfl⟩)
  exact ⟨⟨⟨(), rfl⟩, hnone⟩, hthm.2.2.1 [] [] exModFile hnone⟩

def emptyMonitor : Monitor := { fileMap := NewFileMap, pendingDeletes := [] }

def newFileEvent : Event := { name := "b", op := fsnotifyCreate }

def statNonDir : String → Option Bool := fun _ => some false

def watchNoop : FileMap → String → FileMap × Bool := fun fm _ => (fm, true)

theorem C7_duplicate_create_idempotent_witness :
    (getKey emptyMonitor.pendingDeletes "b" = none ∧
      getKey emptyMonitor.fileMap.files "b" = none ∧ statNonDir "b" = some false) ∧
    (∃ m₁, Monitor.handleCreate statNonDir watchNoop emptyMonitor newFileEvent =
        (m₁, [newFileEvent], none) ∧
      countKey m₁.fileMap.files "b" = 1 ∧
      m₁.fileMap.filesCreated = emptyMonitor.fileMap.filesCreated + 1 ∧
      m₁.fileMap.filesDeleted = emptyMonitor.fileMap.filesDeleted ∧
      Monitor.handleCreate statNonDir watchNoop m₁ newFileEvent = (m₁, [], none)) :=
  ⟨⟨rfl, rfl, rfl⟩,
    C7_duplicate_create_idempotent statNonDir watchNoop emptyMonitor newFileEvent rfl rfl rfl⟩

end Mon
